import Mathlib

/-!
Verification of the batched metric layer of `csrank` (`csrank/metrics_np.py`).

Matrices of shape `(n_instances, n_objects)` are embedded as `List (List ℚ)`
(rational arithmetic models the exact real semantics of the numpy float
computations; no claim here depends on rounding).  A numpy `NaN` produced by a
degenerate row (`0/0`, filtered by `np.nanmean`) is embedded as `none` in
`Option ℚ`.
-/

namespace Csrank

/-- `A.shape[1]` of a rectangular matrix embedded as a list of rows. -/
def nObjects {α : Type} (A : List (List α)) : ℕ := (A.headD []).length

/-- `np.mean` of a one-dimensional array. -/
def listMean (l : List ℚ) : ℚ := l.sum / l.length

/-- `np.nanmean` of a one-dimensional array whose `NaN` entries are `none`. -/
def nanmean (l : List (Option ℚ)) : Option ℚ :=
  let v := l.filterMap id
  if v.length = 0 then none else some (v.sum / v.length)

/-- One instance of the `transpositions` count of
`zero_one_rank_loss_for_scores_ties_np`: the number of index pairs `(a, b)`
with `y_true[b] - y_true[a] > 0` and `s_pred[b] - s_pred[a] > 0`
(`np.sum(np.logical_and(mask, mask2), axis=(1, 2))`). -/
def transpositionsRow (m : ℕ) (y s : List ℚ) : ℚ :=
  ∑ a ∈ Finset.range m, ∑ b ∈ Finset.range m,
    if y.getD b 0 - y.getD a 0 > 0 ∧ s.getD b 0 - s.getD a 0 > 0 then 1 else 0

/-- One instance of `np.sum(mask3, axis=(1, 2))`: the number of index pairs
`(a, b)` (diagonal included) whose predicted scores are equal. -/
def tieSumRow (m : ℕ) (s : List ℚ) : ℚ :=
  ∑ a ∈ Finset.range m, ∑ b ∈ Finset.range m,
    if s.getD b 0 - s.getD a 0 = 0 then 1 else 0

/-- The per-instance value of `zero_one_rank_loss_for_scores_ties_np`:
`(transpositions + (ties - n_objects) / 4) / (n_objects * (n_objects - 1) / 2)`. -/
def zero_one_rank_loss_row (m : ℕ) (y s : List ℚ) : ℚ :=
  (transpositionsRow m y s + (tieSumRow m s - m) / 4) /
    ((m : ℚ) * ((m : ℚ) - 1) / 2)

/-- `zero_one_rank_loss_for_scores_ties_np(y_true, s_pred)`. -/
def zero_one_rank_loss_for_scores_ties_np (Y S : List (List ℚ)) : ℚ :=
  listMean ((Y.zip S).map fun p => zero_one_rank_loss_row (nObjects Y) p.1 p.2)

/-- `zero_one_rank_loss_for_scores_np(y_true, s_pred)` (the source simply
forwards to the tie-aware implementation). -/
def zero_one_rank_loss_for_scores_np (Y S : List (List ℚ)) : ℚ :=
  zero_one_rank_loss_for_scores_ties_np Y S

/-- `kendalls_tau_for_scores_np(y_true, s_pred)`. -/
def kendalls_tau_for_scores_np (Y S : List (List ℚ)) : ℚ :=
  1 - 2 * zero_one_rank_loss_for_scores_ties_np Y S

/-- Claim C1: on the literal input `y_true = [[0,1,2]]` (ranks, 0 = best) and
`s_pred = [[3,1,2]]`, `zero_one_rank_loss_for_scores_ties_np` returns exactly
`1/3`: one disagreeing unordered pair out of three, with a zero tie-correction
term since the scores are tie-free. -/
theorem zero_one_rank_loss_literal_example :
    zero_one_rank_loss_for_scores_ties_np [[0, 1, 2]] [[3, 1, 2]] = 1 / 3 := by
  simp only [zero_one_rank_loss_for_scores_ties_np, listMean, nObjects,
    zero_one_rank_loss_row, transpositionsRow, tieSumRow, List.zip, List.zipWith,
    List.map, List.headD, Finset.sum_range_succ, Finset.sum_range_zero,
    List.getD, List.get?, List.sum_cons, List.sum_nil, List.length]
  norm_num

/-- Claim C2: for every `y_true` and `s_pred`, `kendalls_tau_for_scores_np`
equals `1 - 2 * zero_one_rank_loss_for_scores_ties_np`. -/
theorem kendalls_tau_eq_one_sub_two_loss :
    ∀ Y S : List (List ℚ), kendalls_tau_for_scores_np Y S =
      1 - 2 * zero_one_rank_loss_for_scores_ties_np Y S :=
  fun _ _ => rfl

/-- Claim C9: `zero_one_rank_loss_for_scores_np` is an exact alias of
`zero_one_rank_loss_for_scores_ties_np`; both entry points always return
identical values. -/
theorem zero_one_rank_loss_alias :
    ∀ Y S : List (List ℚ), zero_one_rank_loss_for_scores_np Y S =
      zero_one_rank_loss_for_scores_ties_np Y S :=
  fun _ _ => rfl

/-- Claim C10: a row of `m ≥ 2` fully tied predicted scores has transposition
count 0, tie correction `(m^2 - m) / 4`, and per-instance loss exactly `1/2`,
regardless of `y_true`. -/
theorem fully_tied_row_loss_half (m : ℕ) (y s : List ℚ) (c : ℚ)
    (hm : 2 ≤ m) (hs : s.length = m) (hc : ∀ x ∈ s, x = c) :
    transpositionsRow m y s = 0 ∧
      (tieSumRow m s - m) / 4 = ((m : ℚ) ^ 2 - m) / 4 ∧
      zero_one_rank_loss_row m y s = 1 / 2 := by
  have hgetD : ∀ a, a < m → s.getD a 0 = c := by
    intro a ha
    have ha' : a < s.length := by omega
    have hmem : s.getD a 0 ∈ s := by
      rw [List.getD_eq_getElem s 0 ha']
      exact List.getElem_mem ha'
    exact hc _ hmem
  have htr : transpositionsRow m y s = 0 := by
    unfold transpositionsRow
    refine Finset.sum_eq_zero fun a ha => Finset.sum_eq_zero fun b hb => ?_
    rw [hgetD a (Finset.mem_range.mp ha), hgetD b (Finset.mem_range.mp hb)]
    simp
  have hties : tieSumRow m s = (m : ℚ) * m := by
    unfold tieSumRow
    have houter : ∀ a ∈ Finset.range m,
        (∑ b ∈ Finset.range m,
          if s.getD b 0 - s.getD a 0 = 0 then (1 : ℚ) else 0) = m := by
      intro a ha
      have hinner : ∀ b ∈ Finset.range m,
          (if s.getD b 0 - s.getD a 0 = 0 then (1 : ℚ) else 0) = 1 := by
        intro b hb
        rw [hgetD a (Finset.mem_range.mp ha), hgetD b (Finset.mem_range.mp hb)]
        simp
      rw [Finset.sum_congr rfl hinner]
      simp
    rw [Finset.sum_congr rfl houter]
    simp [mul_comm]
  refine ⟨htr, ?_, ?_⟩
  · rw [hties]; ring_nf
  · unfold zero_one_rank_loss_row
    rw [htr, hties]
    have hm2 : (2 : ℚ) ≤ (m : ℚ) := by exact_mod_cast hm
    have hmne : (m : ℚ) ≠ 0 := by linarith
    have hm1ne : (m : ℚ) - 1 ≠ 0 := by linarith
    field_simp
    ring

/-- Witness for claim C10 at `m = 2`, `y = [0, 1]`, `s = [7, 7]`. -/
theorem fully_tied_row_loss_half_witness :
    transpositionsRow 2 [0, 1] [7, 7] = 0 ∧
      (tieSumRow 2 [7, 7] - (2 : ℕ)) / 4 = (((2 : ℕ) : ℚ) ^ 2 - (2 : ℕ)) / 4 ∧
      zero_one_rank_loss_row 2 [0, 1] [7, 7] = 1 / 2 :=
  fully_tied_row_loss_half 2 [0, 1] [7, 7] 7 (by decide) (by decide)
    (by decide)

/-- Modelled from the spec: `scores_to_rankings` lives in
`csrank/numpy_util.py`, which is not part of the sources here.  Per the spec
the rank of object `j` is its 0-based position when the objects are sorted by
descending score, with ties broken by a stable deterministic order (here:
original index order); the spec's literal example maps scores `[3,1,2]` to
ranking `[0,2,1]`.  The rank of `j` is therefore the number of objects with a
strictly larger score plus the number of earlier objects with an equal
score. -/
def rankOf (s : List ℚ) (j : ℕ) : ℕ :=
  ((List.range s.length).filter fun l => decide (s.getD j 0 < s.getD l 0)).length +
    ((List.range j).filter fun l => decide (s.getD l 0 = s.getD j 0)).length

/-- Modelled from the spec: the batched score-to-ranking transform (one row of
ranks per row of scores). -/
def scores_to_rankings (S : List (List ℚ)) : List (List ℚ) :=
  S.map fun s => (List.range s.length).map fun j => (rankOf s j : ℚ)

/-- One instance of `spearman_correlation_for_scores_np`: the closed form
`1 - 6 * sum((r1 - r2)^2) / denominator` when the predicted ranking `r2` has
no repeated value, `NaN` (= `none`) otherwise.  A zero denominator (fewer than
two objects) makes the float expression `0/0 = NaN`, embedded as `none` as
well. -/
def spearmanRow (denom : ℚ) (r1 r2 : List ℚ) : Option ℚ :=
  if r2.Nodup then
    if denom = 0 then none
    else some (1 - 6 * (List.zipWith (fun a b => (a - b) ^ 2) r1 r2).sum / denom)
  else none

/-- `spearman_correlation_for_scores_np(y_true, s_pred)`. -/
def spearman_correlation_for_scores_np (Y S : List (List ℚ)) : Option ℚ :=
  nanmean ((Y.zip (scores_to_rankings S)).map fun p =>
    spearmanRow ((nObjects Y : ℚ) * ((nObjects Y : ℚ) ^ 2 - 1)) p.1 p.2)

lemma sum_zipWith_sub_sq_self (r : List ℚ) :
    (List.zipWith (fun a b => (a - b) ^ 2) r r).sum = 0 := by
  induction r with
  | nil => simp
  | cons x xs ih => simp [ih]

lemma filterMap_id_replicate_some (n : ℕ) (a : ℚ) :
    (List.replicate n (some a)).filterMap id = List.replicate n a := by
  induction n with
  | zero => simp
  | succ k ih => simp [List.replicate_succ, ih]

/-- Claim C7 (counterexample): a one-object batch where the predicted ranking
equals `y_true` and is trivially tie-free, yet the metric returns `NaN`
(`none`) rather than `1.0`, because the closed-form denominator
`m * (m^2 - 1)` vanishes at `m = 1`. -/
theorem spearman_identical_not_one_at_m1 :
    scores_to_rankings [[(5 : ℚ)]] = [[0]] ∧
      ([(0 : ℚ)] : List ℚ).Nodup ∧
      spearman_correlation_for_scores_np [[0]] [[5]] = none ∧
      spearman_correlation_for_scores_np [[0]] [[5]] ≠ some 1 := by
  refine ⟨by decide, by decide, ?_, ?_⟩ <;>
    simp [spearman_correlation_for_scores_np, scores_to_rankings, rankOf,
      nObjects, spearmanRow, nanmean, List.range_succ]

/-- Claim C7 (amended): for every nonempty batch over at least two objects in
which, for each row, the ranking derived from `s_pred` by the score-to-ranking
transform equals the corresponding row of `y_true` and contains no repeated
values, `spearman_correlation_for_scores_np` returns `1.0`. -/
theorem spearman_identical_ranking (Y S : List (List ℚ))
    (hn : Y ≠ []) (hlen : Y.length = S.length) (hm : 2 ≤ nObjects Y)
    (h : ∀ i, i < Y.length →
      (scores_to_rankings S).getD i [] = Y.getD i [] ∧ (Y.getD i []).Nodup) :
    spearman_correlation_for_scores_np Y S = some 1 := by
  set m := nObjects Y with hmdef
  have hm' : (2 : ℚ) ≤ (m : ℚ) := by exact_mod_cast hm
  have hdenom : (m : ℚ) * ((m : ℚ) ^ 2 - 1) ≠ 0 := by
    have h1 : (0 : ℚ) < (m : ℚ) := by linarith
    have h2 : (0 : ℚ) < (m : ℚ) ^ 2 - 1 := by nlinarith
    positivity
  have hYP : (scores_to_rankings S).length = Y.length := by
    simp [scores_to_rankings, hlen]
  have hL : ((Y.zip (scores_to_rankings S)).map fun p =>
      spearmanRow ((m : ℚ) * ((m : ℚ) ^ 2 - 1)) p.1 p.2) =
      List.replicate Y.length (some 1) := by
    apply List.ext_getElem
    · simp [hYP]
    · intro i h1 h2
      have hiY : i < Y.length := by
        simpa [hYP] using h1
      have hiP : i < (scores_to_rankings S).length := by omega
      obtain ⟨heq, hnd⟩ := h i hiY
      rw [List.getD_eq_getElem _ _ hiP, List.getD_eq_getElem _ _ hiY] at heq
      have hnd' : (Y[i]).Nodup := by
        rwa [List.getD_eq_getElem _ _ hiY] at hnd
      rw [List.getElem_map, List.getElem_replicate, List.getElem_zip, heq]
      dsimp only
      rw [spearmanRow, if_pos hnd', if_neg hdenom, sum_zipWith_sub_sq_self]
      norm_num
  rw [spearman_correlation_for_scores_np, ← hmdef, hL]
  have hn' : Y.length ≠ 0 := by
    simpa [List.length_eq_zero] using hn
  rw [nanmean]
  simp only [filterMap_id_replicate_some, List.length_replicate,
    List.sum_replicate, if_neg hn', nsmul_eq_mul, mul_one]
  rw [div_self (by exact_mod_cast hn' : (Y.length : ℚ) ≠ 0)]

/-- Witness for the amended claim C7: a tie-free two-object batch whose
derived ranking equals `y_true`. -/
theorem spearman_identical_ranking_witness :
    spearman_correlation_for_scores_np [[0, 1]] [[5, 3]] = some 1 := by
  apply spearman_identical_ranking
  · decide
  · rfl
  · decide
  · intro i hi
    have hi0 : i = 0 := by
      simpa using Nat.lt_one_iff.mp (by simpa using hi)
    subst hi0
    exact ⟨by decide, by decide⟩

/-- The row filter of `auc_score`: the source keeps instance `i` when its
label sum differs from `y_true.shape[-1] - 1`, `y_true.shape[-1]`, `1` and
`0`. -/
def aucKeptRows (Y : List (List ℚ)) : List ℕ :=
  (List.range Y.length).filter fun i =>
    decide ((Y.getD i []).sum ≠ (nObjects Y : ℚ) - 1) &&
    decide ((Y.getD i []).sum ≠ (nObjects Y : ℚ)) &&
    decide ((Y.getD i []).sum ≠ 1) &&
    decide ((Y.getD i []).sum ≠ 0)

/-- `auc_score(y_true, s_pred)`.  The underlying `sklearn.roc_auc_score`
routine is external to this repository and is abstracted: `rocSamples` is the
`average="samples"` variant applied to a sub-batch, `rocSingle` the
single-row variant.  `NaN` is `none`. -/
def auc_score (rocSamples : List (List ℚ) → List (List ℚ) → ℚ)
    (rocSingle : List ℚ → List ℚ → ℚ) (Y S : List (List ℚ)) : Option ℚ :=
  let idx := aucKeptRows Y
  if 1 < idx.length then
    some (rocSamples (idx.map fun i => Y.getD i []) (idx.map fun i => S.getD i []))
  else if idx.length = 1 then
    some (rocSingle (Y.getD (idx.headD 0) []) (S.getD (idx.headD 0) []))
  else none

/-- Claim C5: `auc_score` excludes exactly the rows whose positive-label
count is `0`, `1`, `m - 1` or `m` (`m` = number of labels); with more than one
remaining row it returns the "samples"-averaged AUC of the remaining rows,
with exactly one remaining row the single-row AUC of that row, and with no
remaining row `NaN`. -/
theorem auc_score_spec (rocSamples : List (List ℚ) → List (List ℚ) → ℚ)
    (rocSingle : List ℚ → List ℚ → ℚ) (Y S : List (List ℚ)) :
    (∀ i, i ∈ aucKeptRows Y ↔ i < Y.length ∧
      ¬((Y.getD i []).sum = 0 ∨ (Y.getD i []).sum = 1 ∨
        (Y.getD i []).sum = (nObjects Y : ℚ) - 1 ∨
        (Y.getD i []).sum = (nObjects Y : ℚ))) ∧
    auc_score rocSamples rocSingle Y S =
      (if 1 < (aucKeptRows Y).length then
        some (rocSamples ((aucKeptRows Y).map fun i => Y.getD i [])
          ((aucKeptRows Y).map fun i => S.getD i []))
      else if (aucKeptRows Y).length = 1 then
        some (rocSingle (Y.getD ((aucKeptRows Y).headD 0) [])
          (S.getD ((aucKeptRows Y).headD 0) []))
      else none) := by
  constructor
  · intro i
    simp only [aucKeptRows, List.mem_filter, List.mem_range, Bool.and_eq_true,
      decide_eq_true_eq]
    tauto
  · rfl

/-- One instance of `instance_informedness`: `tp/cp + tn/cn - 1` where `tp`,
`tn` count agreeing positive resp. negative positions and `cp`, `cn` count
the positive resp. negative true labels.  A zero `cp` or `cn` makes the float
expression `0/0 = NaN`, embedded as `none`. -/
def informednessRow (t p : List Bool) : Option ℚ :=
  let tp := (t.zip p).countP fun q => q.1 && q.2
  let tn := (t.zip p).countP fun q => !q.1 && !q.2
  let cp := t.count true
  let cn := t.count false
  if cp = 0 ∨ cn = 0 then none
  else some ((tp : ℚ) / cp + (tn : ℚ) / cn - 1)

/-- `instance_informedness(y_true, y_pred)` over boolean indicator rows. -/
def instance_informedness (Y P : List (List Bool)) : Option ℚ :=
  nanmean ((Y.zip P).map fun q => informednessRow q.1 q.2)

/-- The claim-side true-positive rate `tp / cp` of one row. -/
def tpRate (t p : List Bool) : ℚ :=
  (((t.zip p).countP fun q => q.1 && q.2 : ℕ) : ℚ) / (t.count true : ℚ)

/-- The claim-side true-negative rate `tn / cn` of one row. -/
def tnRate (t p : List Bool) : ℚ :=
  (((t.zip p).countP fun q => !q.1 && !q.2 : ℕ) : ℚ) / (t.count false : ℚ)

lemma filterMap_informedness (l : List (List Bool × List Bool)) :
    ((l.map fun q => informednessRow q.1 q.2).filterMap id) =
      ((l.filter fun q =>
          decide (q.1.count true ≠ 0) && decide (q.1.count false ≠ 0)).map
        fun q => tpRate q.1 q.2 + tnRate q.1 q.2 - 1) := by
  induction l with
  | nil => simp
  | cons q l ih =>
    rw [List.map_cons, List.filter_cons]
    by_cases h : q.1.count true = 0 ∨ q.1.count false = 0
    · have hrow : informednessRow q.1 q.2 = none := by
        rw [informednessRow]; exact if_pos h
      have hfil : (decide (q.1.count true ≠ 0) &&
          decide (q.1.count false ≠ 0)) = false := by
        rcases h with h | h <;> simp [h]
      rw [hfil, List.filterMap_cons_none (by simp [hrow]), if_neg (by simp)]
      exact ih
    · push_neg at h
      have hrow : informednessRow q.1 q.2 =
          some (tpRate q.1 q.2 + tnRate q.1 q.2 - 1) := by
        rw [informednessRow]
        rw [if_neg (by tauto)]
        rfl
      have hfil : (decide (q.1.count true ≠ 0) &&
          decide (q.1.count false ≠ 0)) = true := by
        simp [h.1, h.2]
      rw [hfil, List.filterMap_cons_some (show id (informednessRow q.1 q.2) =
          some (tpRate q.1 q.2 + tnRate q.1 q.2 - 1) by simp [hrow]),
        if_pos rfl, List.map_cons, ih]

/-- Claim C8: `instance_informedness` computes `tp/cp + tn/cn - 1` per row;
a row with zero positive or zero negative true labels yields `NaN` (`none`),
and the returned batch statistic is the NaN-ignoring mean: the mean of the
non-degenerate rows, or `NaN` when every row is degenerate. -/
theorem instance_informedness_spec (Y P : List (List Bool)) :
    (∀ q ∈ Y.zip P, (informednessRow q.1 q.2 = none ↔
        q.1.count true = 0 ∨ q.1.count false = 0)) ∧
    instance_informedness Y P =
      (let good := (Y.zip P).filter fun q =>
          decide (q.1.count true ≠ 0) && decide (q.1.count false ≠ 0)
       if good.length = 0 then none
       else some ((good.map fun q => tpRate q.1 q.2 + tnRate q.1 q.2 - 1).sum /
         good.length)) := by
  constructor
  · intro q _
    rw [informednessRow]
    by_cases h : q.1.count true = 0 ∨ q.1.count false = 0
    · rw [if_pos h]; simpa using h
    · rw [if_neg h]; simpa using h
  · rw [instance_informedness, nanmean]
    simp only [filterMap_informedness, List.length_map]

/-- Witness for claim C8 on a batch with one non-degenerate row (perfectly
predicted) and one all-positive row (excluded as `NaN`). -/
theorem instance_informedness_spec_witness :
    instance_informedness [[true, false], [true, true]]
        [[true, false], [false, false]] = some 1 := by
  rw [(instance_informedness_spec [[true, false], [true, true]]
    [[true, false], [false, false]]).2]
  have hg : (([[true, false], [true, true]].zip
        [[true, false], [false, false]]).filter fun q =>
      decide (q.1.count true ≠ 0) && decide (q.1.count false ≠ 0)) =
      [([true, false], [true, false])] := by decide
  simp only [hg]
  norm_num [tpRate, tnRate, List.countP_cons, List.countP_nil, List.count_cons,
    List.count_nil]

/-- `relevance_gain_np(grading, max_grade)`:
`(2 ** (-grading + max_grade) - 1) / 2 ** max_grade` on integer grades
(python integer arithmetic, exact in ℚ). -/
def relevance_gain_np (grading max_grade : ℤ) : ℚ :=
  ((2 : ℚ) ^ (-grading + max_grade) - 1) / (2 : ℚ) ^ max_grade

/-- `np.max(y_true)` over the flattened matrix (the source errors on an empty
input; the empty case here takes the junk value 0). -/
def matMax (Y : List (List ℤ)) : ℤ :=
  match Y.flatten with
  | [] => 0
  | x :: xs => xs.foldl max x

/-- `np.cumprod` with an explicit running-product accumulator. -/
def cumprodAux (a : ℚ) : List ℚ → List ℚ
  | [] => []
  | x :: xs => (a * x) :: cumprodAux (a * x) xs

/-- `np.cumprod` of a one-dimensional array. -/
def cumprod (xs : List ℚ) : List ℚ := cumprodAux 1 xs

/-- `satisfied_probs` of `err_np` (default `probability_mapping`): every true
grade mapped through `relevance_gain_np` at the observed maximum grade. -/
def satisfiedProbs (Y : List (List ℤ)) : List (List ℚ) :=
  Y.map fun row => row.map fun g => relevance_gain_np g (matMax Y)

/-- `satisfied_at_rank` of `err_np`: the satisfaction probabilities of each
row reordered by the predicted ranking
(`satisfied_probs[row_indices, y_pred]`). -/
def satisfiedAtRank (Y : List (List ℤ)) (P : List (List ℕ)) : List (List ℚ) :=
  ((satisfiedProbs Y).zip P).map fun q => q.2.map fun j => q.1.getD j 0

/-- `not_yet_satisfied_at_rank` of `err_np`: the cumulative product of
`1 - satisfied_at_rank`, shifted right by one with a leading `1.0`
(the `hstack`-a-column-of-ones-and-drop-the-last-column construction). -/
def notYetSatisfiedAtRank (Y : List (List ℤ)) (P : List (List ℕ)) :
    List (List ℚ) :=
  (satisfiedAtRank Y P).map fun row =>
    (1 :: cumprod (row.map fun x => 1 - x)).dropLast

/-- `utilities` of `err_np` (default `utility_function`): the reciprocal
`1/r` of each 1-indexed rank `r = 1 .. nobjects`. -/
def utilities (m : ℕ) : List ℚ :=
  (List.range m).map fun r : ℕ => 1 / ((r : ℚ) + 1)

/-- `err_np(y_true, y_pred)` with both hooks left at their defaults. -/
def err_np (Y : List (List ℤ)) (P : List (List ℕ)) : ℚ :=
  listMean (((satisfiedAtRank Y P).zip (notYetSatisfiedAtRank Y P)).map fun q =>
    (List.zipWith (fun s du => s * du) q.1
      (List.zipWith (fun ny u => ny * u) q.2 (utilities (nObjects P)))).sum)

/-- The ERR formula as the claim states it: per instance `i`, the sum over
1-indexed ranks `r` of `P(satisfied at r) * (1/r) * Π_{t<r} (1 - P(satisfied
at t))`, averaged over instances, where the satisfaction probability at rank
`r` is the relevance gain of the true grade of the object the predicted
ranking places at rank `r`. -/
def errSpec (Y : List (List ℤ)) (P : List (List ℕ)) : ℚ :=
  (∑ i ∈ Finset.range P.length, ∑ r ∈ Finset.range (nObjects P),
    relevance_gain_np ((Y.getD i []).getD ((P.getD i []).getD r 0) 0) (matMax Y) *
      (1 / ((r : ℚ) + 1)) *
      ∏ t ∈ Finset.range r,
        (1 - relevance_gain_np ((Y.getD i []).getD ((P.getD i []).getD t 0) 0)
          (matMax Y))) / P.length

lemma list_sum_eq_sum_range (l : List ℚ) :
    l.sum = ∑ i ∈ Finset.range l.length, l.getD i 0 := by
  induction l with
  | nil => simp
  | cons x xs ih =>
    rw [List.sum_cons, ih, List.length_cons, Finset.sum_range_succ']
    simp [add_comm]

lemma errRow_eq (sat : List ℚ) : ∀ (us : List ℚ) (a : ℚ),
    (List.zipWith (fun s du => s * du) sat
      (List.zipWith (fun ny u => ny * u)
        ((a :: cumprodAux a (sat.map fun x => 1 - x)).dropLast) us)).sum =
    ∑ r ∈ Finset.range (min sat.length us.length),
      sat.getD r 0 * us.getD r 0 *
        (a * ∏ t ∈ Finset.range r, (1 - sat.getD t 0)) := by
  induction sat with
  | nil => intro us a; simp
  | cons s ss ih =>
    intro us a
    cases us with
    | nil => simp
    | cons u uu =>
      simp only [List.map_cons, cumprodAux, List.dropLast_cons₂,
        List.zipWith_cons_cons, List.sum_cons, List.length_cons]
      rw [ih uu (a * (1 - s)), Nat.succ_min_succ, Finset.sum_range_succ']
      simp only [List.getD_cons_succ, List.getD_cons_zero,
        Finset.prod_range_succ', Finset.prod_range_zero, one_mul, mul_one]
      rw [Finset.sum_congr rfl fun r _ => ?_]
      · ring
      · ring

lemma getD_map_eq {α β : Type} (f : α → β) (l : List α) (d : α) (d2 : β)
    (i : ℕ) (hi : i < l.length) : (l.map f).getD i d2 = f (l.getD i d) := by
  rw [List.getD_eq_getElem _ _ (by rw [List.length_map]; exact hi),
    List.getD_eq_getElem _ _ hi, List.getElem_map]

lemma getD_mem {α : Type} (l : List α) (d : α) (i : ℕ) (hi : i < l.length) :
    l.getD i d ∈ l := by
  rw [List.getD_eq_getElem _ _ hi]
  exact List.getElem_mem hi

lemma zip_getD_mem {α β : Type} (l1 : List α) (l2 : List β) (d1 : α) (d2 : β)
    (i : ℕ) (h1 : i < l1.length) (h2 : i < l2.length) :
    (l1.getD i d1, l2.getD i d2) ∈ l1.zip l2 := by
  have hz : i < (l1.zip l2).length := by rw [List.length_zip]; omega
  have hmem := List.getElem_mem hz
  rw [List.getElem_zip] at hmem
  rw [List.getD_eq_getElem _ _ h1, List.getD_eq_getElem _ _ h2]
  exact hmem

lemma err_row_getD (Y : List (List ℤ)) (P : List (List ℕ))
    (hlen : Y.length = P.length)
    (hrows : ∀ r ∈ P, r.length = nObjects P)
    (hidx : ∀ q ∈ Y.zip P, ∀ j ∈ q.2, j < q.1.length)
    (i : ℕ) (hiP : i < P.length) :
    (((satisfiedAtRank Y P).zip (notYetSatisfiedAtRank Y P)).map fun q =>
      (List.zipWith (fun s du => s * du) q.1
        (List.zipWith (fun ny u => ny * u) q.2
          (utilities (nObjects P)))).sum).getD i 0 =
    ∑ r ∈ Finset.range (nObjects P),
      relevance_gain_np ((Y.getD i []).getD ((P.getD i []).getD r 0) 0)
          (matMax Y) * (1 / ((r : ℚ) + 1)) *
        ∏ t ∈ Finset.range r,
          (1 - relevance_gain_np ((Y.getD i []).getD ((P.getD i []).getD t 0) 0)
            (matMax Y)) := by
  have hiY : i < Y.length := by omega
  have hprobs : (satisfiedProbs Y).length = Y.length := by simp [satisfiedProbs]
  have hA : (satisfiedAtRank Y P).length = P.length := by
    simp [satisfiedAtRank, hprobs, hlen]
  have hB : (notYetSatisfiedAtRank Y P).length = P.length := by
    simp [notYetSatisfiedAtRank, hA]
  have hiA : i < (satisfiedAtRank Y P).length := by omega
  have hiB : i < (notYetSatisfiedAtRank Y P).length := by omega
  have hiz : i < ((satisfiedAtRank Y P).zip (notYetSatisfiedAtRank Y P)).length := by
    rw [List.length_zip]; omega
  have hiL : i < (((satisfiedAtRank Y P).zip (notYetSatisfiedAtRank Y P)).map fun q =>
      (List.zipWith (fun s du => s * du) q.1
        (List.zipWith (fun ny u => ny * u) q.2
          (utilities (nObjects P)))).sum).length := by
    rw [List.length_map]; exact hiz
  have hPmem : P.getD i [] ∈ P := getD_mem P [] i hiP
  have hPilen : (P.getD i []).length = nObjects P := hrows _ hPmem
  have hqmem : (Y.getD i [], P.getD i []) ∈ Y.zip P :=
    zip_getD_mem Y P [] [] i hiY hiP
  have hprobsi : (satisfiedProbs Y).getD i [] =
      (Y.getD i []).map fun g => relevance_gain_np g (matMax Y) := by
    rw [satisfiedProbs, getD_map_eq _ Y [] [] i hiY]
  have hAi : (satisfiedAtRank Y P).getD i [] =
      (P.getD i []).map fun j =>
        ((Y.getD i []).map fun g => relevance_gain_np g (matMax Y)).getD j 0 := by
    rw [satisfiedAtRank, List.getD_eq_getElem _ _ (by
      rw [List.length_map, List.length_zip]; omega : i <
        (((satisfiedProbs Y).zip P).map fun q =>
          q.2.map fun j => q.1.getD j 0).length)]
    rw [List.getElem_map, List.getElem_zip]
    dsimp only
    rw [← List.getD_eq_getElem (satisfiedProbs Y) [] (by omega : i < (satisfiedProbs Y).length),
      ← List.getD_eq_getElem P [] hiP, hprobsi]
  have hBi : (notYetSatisfiedAtRank Y P).getD i [] =
      (1 :: cumprod (((satisfiedAtRank Y P).getD i []).map fun x => 1 - x)).dropLast := by
    rw [notYetSatisfiedAtRank, List.getD_eq_getElem _ _ (by
      rw [List.length_map]; omega : i <
        ((satisfiedAtRank Y P).map fun row =>
          (1 :: cumprod (row.map fun x => 1 - x)).dropLast).length)]
    rw [List.getElem_map, ← List.getD_eq_getElem (satisfiedAtRank Y P) [] hiA]
  have hSval : ∀ r, r < nObjects P →
      (((P.getD i []).map fun j =>
        ((Y.getD i []).map fun g => relevance_gain_np g (matMax Y)).getD j 0).getD r 0) =
      relevance_gain_np ((Y.getD i []).getD ((P.getD i []).getD r 0) 0) (matMax Y) := by
    intro r hr
    have hrP : r < (P.getD i []).length := by omega
    rw [getD_map_eq _ (P.getD i []) 0 0 r hrP]
    have hjmem : (P.getD i []).getD r 0 ∈ P.getD i [] := getD_mem _ 0 r hrP
    have hjY : (P.getD i []).getD r 0 < (Y.getD i []).length :=
      hidx _ hqmem _ hjmem
    rw [getD_map_eq _ (Y.getD i []) 0 0 _ hjY]
  rw [List.getD_eq_getElem _ _ hiL, List.getElem_map, List.getElem_zip]
  dsimp only
  rw [← List.getD_eq_getElem (satisfiedAtRank Y P) [] hiA,
    ← List.getD_eq_getElem (notYetSatisfiedAtRank Y P) [] hiB, hBi, hAi,
    cumprod, errRow_eq]
  have hSlen : ((P.getD i []).map fun j =>
      ((Y.getD i []).map fun g => relevance_gain_np g (matMax Y)).getD j 0).length =
      nObjects P := by
    rw [List.length_map, hPilen]
  have hUlen : (utilities (nObjects P)).length = nObjects P := by
    rw [utilities, List.length_map, List.length_range]
  rw [hSlen, hUlen, min_self]
  refine Finset.sum_congr rfl fun r hr => ?_
  have hrm : r < nObjects P := Finset.mem_range.mp hr
  have hUval : (utilities (nObjects P)).getD r 0 = 1 / ((r : ℚ) + 1) := by
    rw [utilities, List.getD_eq_getElem _ _
      (by rw [List.length_map, List.length_range]; exact hrm),
      List.getElem_map, List.getElem_range]
  rw [hSval r hrm, hUval, one_mul]
  rw [Finset.prod_congr rfl fun t ht => ?_]
  rw [hSval t (by have := Finset.mem_range.mp ht; omega)]

/-- Claim C6: with both hooks at their defaults, `err_np` maps every true
grade `g` to `relevance_gain_np g (max entry of y_true)`, reorders these
probabilities by the predicted ranking, multiplies the probability at each
1-indexed rank `r` by `1/r` and by the shifted cumulative product
`Π_{t<r} (1 - p_t)` of not having been satisfied earlier, sums over ranks
and averages over instances. -/
theorem err_np_default_formula (Y : List (List ℤ)) (P : List (List ℕ))
    (hlen : Y.length = P.length)
    (hrows : ∀ r ∈ P, r.length = nObjects P)
    (hidx : ∀ q ∈ Y.zip P, ∀ j ∈ q.2, j < q.1.length) :
    err_np Y P = errSpec Y P := by
  rw [err_np, errSpec, listMean, list_sum_eq_sum_range]
  have hprobs : (satisfiedProbs Y).length = Y.length := by simp [satisfiedProbs]
  have hA : (satisfiedAtRank Y P).length = P.length := by
    simp [satisfiedAtRank, hprobs, hlen]
  have hB : (notYetSatisfiedAtRank Y P).length = P.length := by
    simp [notYetSatisfiedAtRank, hA]
  have hL : (((satisfiedAtRank Y P).zip (notYetSatisfiedAtRank Y P)).map fun q =>
      (List.zipWith (fun s du => s * du) q.1
        (List.zipWith (fun ny u => ny * u) q.2
          (utilities (nObjects P)))).sum).length = P.length := by
    rw [List.length_map, List.length_zip]; omega
  rw [hL]
  congr 1
  exact Finset.sum_congr rfl fun i hi =>
    err_row_getD Y P hlen hrows hidx i (Finset.mem_range.mp hi)

/-- Witness for claim C6 on the batch `y_true = [[0, 1]]` with the identity
predicted ranking. -/
theorem err_np_default_formula_witness :
    err_np [[0, 1]] [[0, 1]] = errSpec [[0, 1]] [[0, 1]] :=
  err_np_default_formula [[0, 1]] [[0, 1]] (by decide) (by decide) (by decide)

/-!
NDCG@k works over exact reals: the relevance transform and the logarithmic
discounts are transcendental, so these definitions are noncomputable; every
claim about them is settled structurally.
-/

/-- The relevance transform of `make_ndcg_at_k_loss_np`:
`2 ** ((n_objects - grade) * 60 / n_objects) - 1`. -/
noncomputable def ndcgRel (m : ℕ) (g : ℝ) : ℝ :=
  (2 : ℝ) ^ ((((m : ℝ) - g) * 60) / (m : ℝ)) - 1

/-- The `log_term` entries of `make_ndcg_at_k_loss_np`:
`log(rank + 2) / log 2` at 0-based rank positions. -/
noncomputable def logTerm (p : ℕ) : ℝ := Real.log ((p : ℝ) + 2) / Real.log 2

/-- Insertion of an index into an index list sorted ascending by key (the
deterministic model of `np.argsort`'s comparison sort). -/
noncomputable def insertAsc (key : ℕ → ℝ) (i : ℕ) : List ℕ → List ℕ
  | [] => [i]
  | j :: js => if key i ≤ key j then i :: j :: js else j :: insertAsc key i js

/-- `np.argsort` over one row of `m` keys: the object indices `0 .. m-1`
sorted by ascending key. -/
noncomputable def argsort (key : ℕ → ℝ) (m : ℕ) : List ℕ :=
  (List.range m).foldr (insertAsc key) []

/-- One DCG sum of `make_ndcg_at_k_loss_np`: the relevances at the first `k`
entries of an index list, divided position-wise by `log_term` and summed. -/
noncomputable def dcgAt (k : ℕ) (rel : List ℝ) (idxs : List ℕ) : ℝ :=
  (List.zipWith (fun j p => rel.getD j 0 / logTerm p) (idxs.take k)
    (List.range k)).sum

/-- One instance of the `ndcg` closure of `make_ndcg_at_k_loss_np`: the
top-k index lists come from descending true resp. predicted relevance order
(`argsort` reversed), and the predicted DCG reads the *true* relevances at
the predicted top-k positions; the result is `pred_rel / idcg`. -/
noncomputable def ndcgInstance (k m : ℕ) (yRow pRow : List ℝ) : ℝ :=
  dcgAt k (yRow.map (ndcgRel m))
      ((argsort (fun j => (pRow.map (ndcgRel m)).getD j 0) pRow.length).reverse) /
    dcgAt k (yRow.map (ndcgRel m))
      ((argsort (fun j => (yRow.map (ndcgRel m)).getD j 0) yRow.length).reverse)

/-- `make_ndcg_at_k_loss_np(k)(y_true, y_pred)`: the per-instance vector of
`pred_rel / idcg` ratios (numpy shape `(n_instances, 1)`). -/
noncomputable def make_ndcg_at_k_loss_np (k : ℕ) (Y P : List (List ℝ)) :
    List ℝ :=
  (Y.zip P).map fun q => ndcgInstance k (nObjects Y) q.1 q.2

lemma zip_self {α : Type} (l : List α) : l.zip l = l.map fun a => (a, a) := by
  induction l with
  | nil => rfl
  | cons x xs ih => simp [ih]

lemma length_insertAsc (key : ℕ → ℝ) (i : ℕ) :
    ∀ l : List ℕ, (insertAsc key i l).length = l.length + 1 := by
  intro l
  induction l with
  | nil => rfl
  | cons j js ih =>
    rw [insertAsc]
    split
    · simp
    · simp [ih]

lemma mem_insertAsc (key : ℕ → ℝ) (i x : ℕ) :
    ∀ l : List ℕ, x ∈ insertAsc key i l → x = i ∨ x ∈ l := by
  intro l
  induction l with
  | nil =>
    intro h
    simp [insertAsc] at h
    exact Or.inl h
  | cons j js ih =>
    rw [insertAsc]
    split
    · intro h
      simpa using List.mem_cons.mp h
    · intro h
      rcases List.mem_cons.mp h with h | h
      · right; simp [h]
      · rcases ih h with h | h
        · left; exact h
        · right; exact List.mem_cons_of_mem _ h

lemma length_argsort (key : ℕ → ℝ) (m : ℕ) : (argsort key m).length = m := by
  rw [argsort]
  have hfold : ∀ l : List ℕ, (l.foldr (insertAsc key) []).length = l.length := by
    intro l
    induction l with
    | nil => rfl
    | cons x xs ih => simp [List.foldr_cons, length_insertAsc, ih]
  rw [hfold, List.length_range]

lemma mem_argsort_lt (key : ℕ → ℝ) (m : ℕ) (x : ℕ)
    (hx : x ∈ argsort key m) : x < m := by
  rw [argsort] at hx
  have hfold : ∀ l : List ℕ, x ∈ l.foldr (insertAsc key) [] → x ∈ l := by
    intro l
    induction l with
    | nil =>
      intro h
      simp at h
    | cons y ys ih =>
      intro h
      rcases mem_insertAsc key y x _ h with h | h
      · simp [h]
      · exact List.mem_cons_of_mem _ (ih h)
  simpa using hfold _ hx

lemma ndcgRel_pos (m : ℕ) (g : ℝ) (hm : 0 < m) (hg : g < m) :
    0 < ndcgRel m g := by
  rw [ndcgRel]
  have hm' : (0 : ℝ) < (m : ℝ) := by exact_mod_cast hm
  have he : 0 < (((m : ℝ) - g) * 60) / (m : ℝ) :=
    div_pos (by nlinarith) hm'
  have h2 : (1 : ℝ) < (2 : ℝ) ^ ((((m : ℝ) - g) * 60) / (m : ℝ)) := by
    rw [Real.one_lt_rpow_iff_of_pos (by norm_num)]
    exact Or.inl ⟨by norm_num, he⟩
  linarith

lemma logTerm_pos (p : ℕ) : 0 < logTerm p := by
  rw [logTerm]
  have hp : (0 : ℝ) ≤ (p : ℝ) := Nat.cast_nonneg p
  exact div_pos (Real.log_pos (by linarith)) (Real.log_pos (by norm_num))

lemma mem_zipWith_imp {α β γ : Type} (f : α → β → γ) :
    ∀ (l1 : List α) (l2 : List β) (x : γ), x ∈ List.zipWith f l1 l2 →
      ∃ a ∈ l1, ∃ b ∈ l2, x = f a b := by
  intro l1
  induction l1 with
  | nil => intro l2 x h; simp at h
  | cons a as ih =>
    intro l2 x h
    cases l2 with
    | nil => simp at h
    | cons b bs =>
      rw [List.zipWith_cons_cons] at h
      rcases List.mem_cons.mp h with h | h
      · exact ⟨a, by simp, b, by simp, h⟩
      · obtain ⟨a', ha', b', hb', hx⟩ := ih bs x h
        exact ⟨a', List.mem_cons_of_mem _ ha', b',
          List.mem_cons_of_mem _ hb', hx⟩

lemma dcgAt_pos (k : ℕ) (rel : List ℝ) (idxs : List ℕ) (hk : 1 ≤ k)
    (hlen : k ≤ idxs.length) (hpos : ∀ j ∈ idxs, 0 < rel.getD j 0) :
    0 < dcgAt k rel idxs := by
  rw [dcgAt]
  apply List.sum_pos
  · intro x hx
    obtain ⟨j, hj, p, _, hxval⟩ := mem_zipWith_imp _ _ _ _ hx
    rw [hxval]
    exact div_pos (hpos j (List.take_subset k idxs hj)) (logTerm_pos p)
  · have hlength : (List.zipWith (fun j p => rel.getD j 0 / logTerm p)
        (idxs.take k) (List.range k)).length = k := by
      rw [List.length_zipWith, List.length_take, List.length_range,
        min_eq_left hlen, min_self]
    intro hnil
    rw [hnil] at hlength
    simp at hlength
    omega

/-- Claim C3 (counterexample): on a two-instance batch the NDCG@k metric
returns a two-entry per-instance vector, not a single batch-averaged
scalar. -/
theorem ndcg_not_single_scalar :
    (make_ndcg_at_k_loss_np 2 [[0, 1], [1, 0]] [[0, 1], [1, 0]]).length = 2 := by
  rw [make_ndcg_at_k_loss_np, List.length_map, List.length_zip]
  rfl

/-- Claim C3 (amended): `make_ndcg_at_k_loss_np(k)` returns the vector of
per-instance `pred_rel / idcg` ratios, one entry per instance; no averaging
over instances is performed. -/
theorem ndcg_returns_per_instance (k : ℕ) (Y P : List (List ℝ))
    (h : Y.length = P.length) :
    (make_ndcg_at_k_loss_np k Y P).length = Y.length ∧
    ∀ i, i < Y.length → (make_ndcg_at_k_loss_np k Y P).getD i 0 =
      ndcgInstance k (nObjects Y) (Y.getD i []) (P.getD i []) := by
  have hlen : (make_ndcg_at_k_loss_np k Y P).length = Y.length := by
    rw [make_ndcg_at_k_loss_np, List.length_map, List.length_zip]
    omega
  refine ⟨hlen, fun i hi => ?_⟩
  have hiP : i < P.length := by omega
  have hiz : i < (Y.zip P).length := by rw [List.length_zip]; omega
  rw [make_ndcg_at_k_loss_np,
    List.getD_eq_getElem _ _ (by rw [List.length_map]; exact hiz),
    List.getElem_map, List.getElem_zip]
  dsimp only
  rw [← List.getD_eq_getElem Y [] hi, ← List.getD_eq_getElem P [] hiP]

/-- Witness for the amended claim C3 at `k = 1` on a one-instance batch. -/
theorem ndcg_returns_per_instance_witness :
    (make_ndcg_at_k_loss_np 1 [[(0 : ℝ)]] [[(0 : ℝ)]]).length =
      ([[(0 : ℝ)]] : List (List ℝ)).length ∧
    ∀ i, i < ([[(0 : ℝ)]] : List (List ℝ)).length →
      (make_ndcg_at_k_loss_np 1 [[(0 : ℝ)]] [[(0 : ℝ)]]).getD i 0 =
        ndcgInstance 1 (nObjects ([[(0 : ℝ)]] : List (List ℝ)))
          (([[(0 : ℝ)]] : List (List ℝ)).getD i [])
          (([[(0 : ℝ)]] : List (List ℝ)).getD i []) :=
  ndcg_returns_per_instance 1 [[(0 : ℝ)]] [[(0 : ℝ)]] rfl

/-- Claim C4: on a batch of rankings (every row of `y_true` has the full
width and every grade is below the number of objects) with a valid cutoff
`1 ≤ k ≤ n_objects`, the NDCG@k metric at `y_pred = y_true` yields `1.0` for
every instance, because the predicted DCG coincides with the ideal DCG and
the latter is positive. -/
theorem ndcg_perfect_prediction (k : ℕ) (Y : List (List ℝ))
    (hk : 1 ≤ k) (hkm : k ≤ nObjects Y)
    (hrow : ∀ r ∈ Y, r.length = nObjects Y ∧
      ∀ x ∈ r, x < (nObjects Y : ℝ)) :
    ∀ g ∈ make_ndcg_at_k_loss_np k Y Y, g = 1 := by
  intro g hg
  rw [make_ndcg_at_k_loss_np, zip_self, List.map_map] at hg
  obtain ⟨r, hr, hgr⟩ := List.mem_map.mp hg
  obtain ⟨hrlen, hrlt⟩ := hrow r hr
  rw [← hgr]
  simp only [Function.comp_apply]
  rw [ndcgInstance]
  apply div_self
  apply ne_of_gt
  apply dcgAt_pos
  · exact hk
  · rw [List.length_reverse, length_argsort, hrlen]
    exact hkm
  · intro j hj
    have hjm : j < r.length := by
      have := mem_argsort_lt _ _ j (List.mem_reverse.mp hj)
      omega
    rw [getD_map_eq (ndcgRel (nObjects Y)) r 0 0 j hjm]
    refine ndcgRel_pos _ _ (by omega) ?_
    exact hrlt _ (getD_mem r 0 j hjm)

/-- Witness for claim C4: `k = 1` on the one-ranking batch `[[0]]`. -/
theorem ndcg_perfect_prediction_witness :
    make_ndcg_at_k_loss_np 1 [[(0 : ℝ)]] [[(0 : ℝ)]] = [1] := by
  have h := ndcg_perfect_prediction 1 [[(0 : ℝ)]] le_rfl (by norm_num [nObjects])
    (by
      intro r hr
      have hr' : r = [(0 : ℝ)] := by simpa using hr
      subst hr'
      refine ⟨by norm_num [nObjects], ?_⟩
      intro x hx
      have hx' : x = 0 := by simpa using hx
      subst hx'
      norm_num [nObjects])
  have hlen : (make_ndcg_at_k_loss_np 1 [[(0 : ℝ)]] [[(0 : ℝ)]]).length = 1 := by
    rw [make_ndcg_at_k_loss_np, List.length_map, List.length_zip]
    rfl
  obtain ⟨a, ha⟩ := List.length_eq_one.mp hlen
  have ha1 : a = 1 := h a (by rw [ha]; exact List.mem_singleton.mpr rfl)
  rw [ha, ha1]

end Csrank
